import Mathlib

/-
Verification of `data/src/languages_update.py`.

The module classifies the Unicode script of each word of a per-language
word list and reconciles the inferred script entries into the language
record of `languages.json`.  The two external Unicode data sources
(`unicodedataplus.script` and
`unicodedataplus.property_value_aliases["script"]`) are parameters of the
embedding (`scriptOf` and `registry`); concrete fragments of them,
modelled from the spec, instantiate the example claims.
-/

namespace LU

/-- A Python `str` iterated character by character. -/
abbrev Word := List Char

/-- Python `s.replace(a, b)` for a single-character pattern and
replacement, which rewrites every occurrence. -/
def pyReplace (a b : Char) (s : String) : String :=
  String.mk (s.data.map (fun c => if c = a then b else c))

/-- Python `s.lower()` restricted to the ASCII range, which covers every
ISO 15924 alias component the registry stores. -/
def pyLower (s : String) : String :=
  String.mk (s.data.map Char.toLower)

/-- Exceptions the embedded fragment of `languages_update.py` can raise. -/
inductive PyErr where
  | keyError (key : String)
deriving DecidableEq

instance (ε α : Type) [DecidableEq ε] [DecidableEq α] :
    DecidableEq (Except ε α) := fun a b =>
  match a, b with
  | Except.ok x, Except.ok y =>
    if h : x = y then isTrue (by rw [h]) else isFalse (by intro hc; cases hc; exact h rfl)
  | Except.error x, Except.error y =>
    if h : x = y then isTrue (by rw [h]) else isFalse (by intro hc; cases hc; exact h rfl)
  | Except.ok _, Except.error _ => isFalse (by intro hc; cases hc)
  | Except.error _, Except.ok _ => isFalse (by intro hc; cases hc)

/-- Number of characters of `word` whose Unicode script property is `s`:
the count accumulated in `script_counts[s]` (languages_update.py:39-40). -/
def scriptCount (scriptOf : Char → String) (word : Word) (s : String) : Nat :=
  (word.filter (fun c => scriptOf c == s)).length

/-- The distinct script labels of `word` in first-occurrence order: the
keys of the `collections.defaultdict` after the counting loop. -/
def distinctScripts (scriptOf : Char → String) (word : Word) : List String :=
  word.foldl (fun acc c => if scriptOf c ∈ acc then acc else acc ++ [scriptOf c]) []

/-- Stable insertion into a list already sorted by descending probability,
matching `list.sort(key=itemgetter(1), reverse=True)`, which keeps earlier
entries first among equal keys. -/
def insertDesc (p : String × Rat) : List (String × Rat) → List (String × Rat)
  | [] => [p]
  | q :: qs => if p.2 < q.2 then q :: insertDesc p qs else p :: q :: qs

/-- Stable sort by descending probability (see `insertDesc`). -/
def sortDesc : List (String × Rat) → List (String × Rat)
  | [] => []
  | p :: ps => insertDesc p (sortDesc ps)

/-- `_detect_best_script_name` (languages_update.py:23-58).  The external
`unicodedataplus.script` table is the parameter `scriptOf`.  Counts are
floats in the source and exact rationals here; the strict decision only
inspects how many distinct labels occur, so the numeric representation is
immaterial to it.  In the source the non-strict branch indexes
`script_probs[0]`, which assumes a non-empty word; `head?` renders that
branch (the module only ever calls the strict default).  The source sorts
in place and then tests `len(script_probs)`; the sort preserves the length
(`sortDesc_length`), so the test reads it off the unsorted list. -/
def _detect_best_script_name (scriptOf : Char → String) (word : Word)
    (strict : Bool) : Option String :=
  let script_probs :=
    (distinctScripts scriptOf word).map
      (fun s => (s, (scriptCount scriptOf word s : Rat) / (word.length : Rat)))
  let sorted := sortDesc script_probs
  if strict = true ∧ script_probs.length ≠ 1 then none
  else (sorted.head?).map Prod.fst

/-- `_get_alias` (languages_update.py:61-71).  The external registry
`unicodedataplus.property_value_aliases["script"]` is the parameter
`registry`; a label missing from it raises `KeyError`. -/
def _get_alias (registry : String → Option (List String)) (value : String) :
    Except PyErr String :=
  match registry value with
  | none => Except.error (PyErr.keyError value)
  | some parts => Except.ok (pyLower (String.join parts))

/-- The `"script"` entry of one language record: a JSON object, i.e. an
insertion-ordered mapping with unique keys. -/
abbrev ScriptMap := List (String × String)

/-- One entry of `languages.json`: only the optional `"script"` field is
touched by the embedded fragment, every other field is carried along
unchanged. -/
structure LangRecord where
  script : Option ScriptMap
deriving DecidableEq

/-- Python dict lookup `m.get(k)` on insertion order. -/
def dictGet (m : ScriptMap) (k : String) : Option String :=
  (m.find? (fun p => p.1 == k)).map Prod.snd

/-- Python `k in m`. -/
def dictHasKey (m : ScriptMap) (k : String) : Bool :=
  m.any (fun p => p.1 == k)

/-- Python dict assignment `m[k] = v`: overwrites in place when the key is
present, otherwise appends. -/
def dictSet (m : ScriptMap) (k v : String) : ScriptMap :=
  if dictHasKey m k then m.map (fun p => if p.1 == k then (k, v) else p)
  else m ++ [(k, v)]

/-- Python `del m[k]`. -/
def dictDel (m : ScriptMap) (k : String) : ScriptMap :=
  m.filter (fun p => !(p.1 == k))

/-- The read-only first pass of `_remove_mismatch_ids`
(languages_update.py:86-96): walk the items in order, normalise spaces of
the value to underscores, and collect the keys whose recomputed alias
differs; a failed alias lookup escapes as the exception. -/
def collectMismatched (registry : String → Option (List String)) :
    ScriptMap → Except PyErr (List String)
  | [] => Except.ok []
  | (key, value) :: rest =>
    match _get_alias registry (pyReplace ' ' '_' value) with
    | Except.error e => Except.error e
    | Except.ok a =>
      match collectMismatched registry rest with
      | Except.error e => Except.error e
      | Except.ok r => Except.ok (if a ≠ key then key :: r else r)

/-- `_remove_mismatch_ids` (languages_update.py:74-99).  The first
component is the raised exception if any; the second is the record as left
in memory — unchanged when an exception escapes, because deletions are
deferred to the second pass. -/
def _remove_mismatch_ids (registry : String → Option (List String))
    (lang : LangRecord) : Option PyErr × LangRecord :=
  match lang.script with
  | none => (some (PyErr.keyError "script"), lang)
  | some m =>
    match collectMismatched registry m with
    | Except.error e => (some e, lang)
    | Except.ok remove => (none, { lang with script := some (remove.foldl dictDel m) })

/-- The body of the per-line loop of `_update_languages_json`
(languages_update.py:131-144) for one word: classify, create the
`"script"` field when absent, insert under the source guard
`if script not in lang["script"]` — which tests the script label, not its
canonical code, against the keys — then run the consistency sweep
unconditionally.  A `KeyError` raised by `_get_alias` escapes before the
assignment, leaving the record as built so far. -/
def processWord (scriptOf : Char → String)
    (registry : String → Option (List String))
    (lang : LangRecord) (w : Word) : Option PyErr × LangRecord :=
  match _detect_best_script_name scriptOf w true with
  | none => _remove_mismatch_ids registry lang
  | some script =>
    let lang1 : LangRecord :=
      match lang.script with
      | none => { lang with script := some [] }
      | some _ => lang
    let m := lang1.script.getD []
    if dictHasKey m script then _remove_mismatch_ids registry lang1
    else
      match _get_alias registry script with
      | Except.error e => (some e, lang1)
      | Except.ok code =>
        _remove_mismatch_ids registry
          { lang1 with script := some (dictSet m code (pyReplace '_' ' ' script)) }

/-- One whole word batch of a language through the per-line loop of
`_update_languages_json` (languages_update.py:125-144): there is no
exception barrier, so a raised exception aborts the remaining words and
surfaces, the record staying as the failing step left it. -/
def reconcile (scriptOf : Char → String)
    (registry : String → Option (List String))
    (lang : LangRecord) : List Word → Option PyErr × LangRecord
  | [] => (none, lang)
  | w :: ws =>
    match processWord scriptOf registry lang w with
    | (some e, lang1) => (some e, lang1)
    | (none, lang1) => reconcile scriptOf registry lang1 ws

/-- Modelled from the spec: the external per-character Unicode script
property table `unicodedataplus.script` (an external collaborator, not in
src/), restricted to the characters the examples use. -/
def uScript (c : Char) : String :=
  if c = 'ژ' ∨ c = 'ۇ' ∨ c = 'ر' ∨ c = 'ن' ∨ c = 'ا' ∨ c = 'ل' then "Arabic"
  else if c = '1' ∨ c = '2' ∨ c = '3' then "Common"
  else if c = 'ω' then "Greek"
  else "Latin"

/-- Modelled from the spec: the external ISO 15924 alias registry
`unicodedataplus.property_value_aliases["script"]` (an external
collaborator, not in src/), restricted to the labels the examples use. -/
def isoRegistry (s : String) : Option (List String) :=
  if s = "Arabic" then some ["Arab"]
  else if s = "Latin" then some ["Latn"]
  else if s = "Common" then some ["Zyyy"]
  else if s = "Greek" then some ["Grek"]
  else none

/-- Modelled from the spec: a drifted alias registry missing a label that
the character table can return, the error condition of spec section 4.2. -/
def driftRegistry (s : String) : Option (List String) :=
  if s = "Latin" then some ["Latn"] else none

/-- A map pair is consistent: the registry canonical code of its label,
spaces normalised to underscores, equals its key.  This is the predicate
the sweep enforces. -/
def keyMatches (registry : String → Option (List String))
    (p : String × String) : Bool :=
  match _get_alias registry (pyReplace ' ' '_' p.2) with
  | Except.ok a => a == p.1
  | Except.error _ => false

/-- The classifier outputs of a batch, in order, skipping NoDecision. -/
def labelsOf (scriptOf : Char → String) (batch : List Word) : List String :=
  batch.filterMap (fun w => _detect_best_script_name scriptOf w true)

/-- The canonical code of a label, defaulting to the empty string when the
lookup fails (used only under hypotheses making the lookup succeed). -/
def aliasD (registry : String → Option (List String)) (L : String) : String :=
  match _get_alias registry L with
  | Except.ok a => a
  | Except.error _ => ""

/-- The (code, stored label) pairs a batch writes, in order. -/
def pairsOf (scriptOf : Char → String)
    (registry : String → Option (List String)) (batch : List Word) : ScriptMap :=
  (labelsOf scriptOf batch).map (fun L => (aliasD registry L, pyReplace '_' ' ' L))

/-- The value of the last write at key `k` among the pairs `ps`. -/
def lastWrite (ps : ScriptMap) (k : String) : Option String :=
  ps.foldl (fun acc p => if p.1 == k then some p.2 else acc) none

/-- The script map a successful `processWord` leaves behind, as shown by
`processWord_ok_eq_stepMap`: insert under the guard, then keep exactly the
consistent pairs. -/
def stepMap (scriptOf : Char → String)
    (registry : String → Option (List String))
    (m : ScriptMap) (w : Word) : ScriptMap :=
  match _detect_best_script_name scriptOf w true with
  | none => m.filter (keyMatches registry)
  | some L =>
    (dictSet m (aliasD registry L) (pyReplace '_' ' ' L)).filter (keyMatches registry)

theorem insertDesc_length (p : String × Rat) :
    ∀ l, (insertDesc p l).length = l.length + 1 := by
  intro l
  induction l with
  | nil => rfl
  | cons q qs ih =>
    unfold insertDesc
    split
    · simp [ih]
    · simp

theorem sortDesc_length : ∀ l, (sortDesc l).length = l.length := by
  intro l
  induction l with
  | nil => rfl
  | cons p ps ih =>
    unfold sortDesc
    rw [insertDesc_length, ih]
    rfl

theorem detect_none_of_length_ne_one (scriptOf : Char → String) (word : Word)
    (h : (distinctScripts scriptOf word).length ≠ 1) :
    _detect_best_script_name scriptOf word true = none := by
  unfold _detect_best_script_name
  rw [if_pos ⟨by trivial, by rw [List.length_map]; exact h⟩]

theorem detect_some_of_singleton (scriptOf : Char → String) (word : Word)
    (s : String) (h : distinctScripts scriptOf word = [s]) :
    _detect_best_script_name scriptOf word true = some s := by
  unfold _detect_best_script_name
  rw [h]
  simp [sortDesc, insertDesc]

/-- Claim C2: in strict mode the classifier returns a label exactly when the
per-character script lookups of the word yield exactly one distinct label,
and then it returns that shared label; two or more distinct labels yield
NoDecision. -/
theorem detect_strict_iff_single_script :
    ∀ (scriptOf : Char → String) (word : Word), word ≠ [] →
      (∀ l, _detect_best_script_name scriptOf word true = some l ↔
        distinctScripts scriptOf word = [l]) ∧
      (2 ≤ (distinctScripts scriptOf word).length →
        _detect_best_script_name scriptOf word true = none) := by
  intro scriptOf word _hw
  constructor
  · intro l
    constructor
    · intro h
      by_cases h1 : (distinctScripts scriptOf word).length = 1
      · obtain ⟨s, hs⟩ := List.length_eq_one.mp h1
        have := detect_some_of_singleton scriptOf word s hs
        rw [this] at h
        cases h
        exact hs
      · rw [detect_none_of_length_ne_one scriptOf word h1] at h
        cases h
    · intro h
      exact detect_some_of_singleton scriptOf word l h
  · intro h2
    apply detect_none_of_length_ne_one
    omega

theorem detect_strict_iff_single_script_wit :
    (['a'] : Word) ≠ [] ∧
    ((∀ l, _detect_best_script_name uScript ['a'] true = some l ↔
        distinctScripts uScript ['a'] = [l]) ∧
      (2 ≤ (distinctScripts uScript ['a']).length →
        _detect_best_script_name uScript ['a'] true = none)) :=
  ⟨by decide, detect_strict_iff_single_script uScript ['a'] (by decide)⟩

/-- Claim C9: in strict mode the classifier returns NoDecision on the empty
word and raises no error: per-label shares are computed only for labels
actually observed, of which the empty word has none, and zero distinct
labels fails the exactly-one test. -/
theorem detect_strict_empty_none :
    ∀ scriptOf : Char → String,
      _detect_best_script_name scriptOf [] true = none ∧
      distinctScripts scriptOf [] = [] :=
  fun _ => ⟨rfl, rfl⟩

/-- Claim C6: for a label present in the alias registry, `_get_alias`
returns the lowercased concatenation of all alias components the registry
holds for it; for an absent label it raises a `KeyError` naming the label;
and these are the only two outcomes. -/
theorem get_alias_total_spec :
    ∀ (registry : String → Option (List String)) (label : String),
      (∃ parts, registry label = some parts ∧
        _get_alias registry label = Except.ok (pyLower (String.join parts))) ∨
      (registry label = none ∧
        _get_alias registry label = Except.error (PyErr.keyError label)) := by
  intro registry label
  cases h : registry label with
  | none => exact Or.inr ⟨rfl, by simp [_get_alias, h]⟩
  | some parts => exact Or.inl ⟨parts, rfl, by simp [_get_alias, h]⟩

/-- Claim C8: the word with characters ژ ۇ ر ن ا ل, all of Unicode script
Arabic, classifies to the label Arabic; its canonical code is arab; and
reconciling a batch holding only this word into a record with no prior
script map leaves the script map with exactly the pair (arab, Arabic). -/
theorem arabic_example_end_to_end :
    _detect_best_script_name uScript "ژۇرنال".data true = some "Arabic" ∧
    _get_alias isoRegistry "Arabic" = Except.ok "arab" ∧
    reconcile uScript isoRegistry ⟨none⟩ ["ژۇرنال".data] =
      (none, ⟨some [("arab", "Arabic")]⟩) :=
  ⟨by decide, by decide, by decide⟩

/-- Claim C5: the consistency sweep is atomic on error: whenever
`_remove_mismatch_ids` raises, the record — and so the script map — is left
exactly as it was, because keys to remove are collected during a read-only
pass and deleted only afterwards. -/
theorem sweep_atomic_on_error :
    ∀ (registry : String → Option (List String)) (lang : LangRecord) (e : PyErr),
      (_remove_mismatch_ids registry lang).1 = some e →
      (_remove_mismatch_ids registry lang).2 = lang := by
  intro registry lang e h
  cases hs : lang.script with
  | none => simp [_remove_mismatch_ids, hs]
  | some m =>
    cases hc : collectMismatched registry m with
    | error e2 => simp [_remove_mismatch_ids, hs, hc]
    | ok r => simp [_remove_mismatch_ids, hs, hc] at h

theorem sweep_atomic_on_error_wit :
    (_remove_mismatch_ids driftRegistry ⟨some [("x", "Latin"), ("y", "Arabic")]⟩).1 =
      some (PyErr.keyError "Arabic") ∧
    (_remove_mismatch_ids driftRegistry ⟨some [("x", "Latin"), ("y", "Arabic")]⟩).2 =
      ⟨some [("x", "Latin"), ("y", "Arabic")]⟩ :=
  ⟨by decide,
    sweep_atomic_on_error driftRegistry ⟨some [("x", "Latin"), ("y", "Arabic")]⟩
      (PyErr.keyError "Arabic") (by decide)⟩

/-- Claim C10: on a record with no script field, a batch whose word
classifies to NoDecision makes reconcile raise KeyError rather than skip
silently: the consistency sweep runs unconditionally after every word and
reads the script field, which only a successful classification creates. -/
theorem sweep_keyerror_no_script :
    ∀ (scriptOf : Char → String) (registry : String → Option (List String))
      (lang : LangRecord) (w : Word) (ws : List Word),
      lang.script = none →
      _detect_best_script_name scriptOf w true = none →
      reconcile scriptOf registry lang (w :: ws) =
        (some (PyErr.keyError "script"), lang) := by
  intro scriptOf registry lang w ws hs hd
  simp [reconcile, processWord, hd, _remove_mismatch_ids, hs]

theorem sweep_keyerror_no_script_wit :
    (LangRecord.mk none).script = none ∧
    _detect_best_script_name uScript ['a', 'ا'] true = none ∧
    reconcile uScript isoRegistry ⟨none⟩ [['a', 'ا']] =
      (some (PyErr.keyError "script"), ⟨none⟩) :=
  ⟨rfl, by decide,
    sweep_keyerror_no_script uScript isoRegistry ⟨none⟩ ['a', 'ا'] [] rfl (by decide)⟩

/-- Claim C1, counterexample: a reconcile call with an empty batch never
reaches the consistency sweep — it sits inside the per-word loop — so the
mismatched pair (aran, Arabic) survives even though the canonical code of
Arabic is arab, not aran. -/
theorem reconcile_emptyBatch_keeps_mismatch_cex :
    reconcile uScript isoRegistry ⟨some [("aran", "Arabic")]⟩ [] =
      (none, ⟨some [("aran", "Arabic")]⟩) ∧
    _get_alias isoRegistry (pyReplace ' ' '_' "Arabic") = Except.ok "arab" ∧
    "arab" ≠ "aran" :=
  ⟨rfl, by decide, by decide⟩

/-- Claim C3, counterexample: the canonical code arab is already a key of
the map, with value Latin; a batch word classifying to Arabic still gets
written, because the guard tests the label Arabic against the keys, and the
existing value Latin is overwritten by Arabic rather than left untouched. -/
theorem insert_guard_overwrite_cex :
    reconcile uScript isoRegistry ⟨some [("arab", "Latin")]⟩ [['ا']] =
      (none, ⟨some [("arab", "Arabic")]⟩) ∧
    _detect_best_script_name uScript ['ا'] true = some "Arabic" ∧
    _get_alias isoRegistry "Arabic" = Except.ok "arab" ∧
    ("Arabic" : String) ≠ "Latin" :=
  ⟨by decide, by decide, by decide, by decide⟩

/-- Claim C4, counterexample: a failed canonical-code lookup on the first
word aborts the whole batch, not just the current word: the second word,
which on its own would be merged as (latn, Latin), is never processed. -/
theorem lookup_failure_aborts_batch_cex :
    reconcile uScript driftRegistry ⟨some []⟩ [['ω'], ['a']] =
      (some (PyErr.keyError "Greek"), ⟨some []⟩) ∧
    reconcile uScript driftRegistry ⟨some []⟩ [['a']] =
      (none, ⟨some [("latn", "Latin")]⟩) :=
  ⟨by decide, by decide⟩

/-- Claim C7, counterexample: on a record whose script map has the key
Latin — a script label used as a key — one reconcile run of the batch skips
the insert (the guard sees the label among the keys) and the sweep empties
the map; the second run then inserts (latn, Latin), so running twice does
not equal running once. -/
theorem reconcile_not_idempotent_cex :
    reconcile uScript isoRegistry ⟨some [("Latin", "Arabic")]⟩ [['a']] =
      (none, ⟨some []⟩) ∧
    reconcile uScript isoRegistry ⟨some []⟩ [['a']] =
      (none, ⟨some [("latn", "Latin")]⟩) ∧
    dictGet [("latn", "Latin")] "latn" ≠ dictGet ([] : ScriptMap) "latn" :=
  ⟨by decide, by decide, by decide⟩

theorem dictHasKey_eq_false (m : ScriptMap) (k : String) :
    dictHasKey m k = false ↔ ∀ p ∈ m, p.1 ≠ k := by
  simp [dictHasKey]

theorem dictGet_eq_none (m : ScriptMap) (k : String)
    (h : ∀ p ∈ m, p.1 ≠ k) : dictGet m k = none := by
  unfold dictGet
  rw [List.find?_eq_none.mpr]
  · rfl
  · intro p hp
    simp [h p hp]

theorem nodup_keys_unique {m : ScriptMap} {p q : String × String}
    (hnd : (m.map Prod.fst).Nodup) (hp : p ∈ m) (hq : q ∈ m)
    (hk : p.1 = q.1) : p = q := by
  induction m with
  | nil => cases hp
  | cons x xs ih =>
    rw [List.map_cons, List.nodup_cons] at hnd
    cases hp with
    | head =>
      cases hq with
      | head => rfl
      | tail _ hq2 =>
        exfalso
        apply hnd.1
        rw [hk]
        exact List.mem_map_of_mem Prod.fst hq2
    | tail _ hp2 =>
      cases hq with
      | head =>
        exfalso
        apply hnd.1
        rw [← hk]
        exact List.mem_map_of_mem Prod.fst hp2
      | tail _ hq2 => exact ih hnd.2 hp2 hq2

theorem dictGet_filter {m : ScriptMap} (q : String × String → Bool) (k : String)
    (hnd : (m.map Prod.fst).Nodup) :
    dictGet (m.filter q) k =
      match dictGet m k with
      | some v => if q (k, v) then some v else none
      | none => none := by
  induction m with
  | nil => rfl
  | cons x xs ih =>
    rw [List.map_cons, List.nodup_cons] at hnd
    by_cases hk : x.1 = k
    · have hx : x = (k, x.2) := by
        cases x
        simp_all
      have hget : dictGet (x :: xs) k = some x.2 := by
        simp [dictGet, List.find?_cons, hk]
      have hnone : dictGet (xs.filter q) k = none := by
        apply dictGet_eq_none
        intro p hp hpk
        apply hnd.1
        rw [hk, ← hpk]
        exact List.mem_map_of_mem Prod.fst (List.mem_of_mem_filter hp)
      by_cases hq : q x = true
      · have hfilter : (x :: xs).filter q = x :: xs.filter q := by
          rw [List.filter_cons, if_pos hq]
        have hget2 : dictGet (x :: xs.filter q) k = some x.2 := by
          simp [dictGet, List.find?_cons, hk]
        rw [hfilter, hget2, hget]
        rw [hx] at hq
        simp [hq]
      · have hfilter : (x :: xs).filter q = xs.filter q := by
          rw [List.filter_cons, if_neg (by simp [hq])]
        rw [hfilter, hnone, hget]
        rw [hx] at hq
        rw [Bool.not_eq_true] at hq
        simp [hq]
    · have h1 : dictGet (x :: xs) k = dictGet xs k := by
        simp [dictGet, List.find?_cons, hk]
      have h2 : dictGet ((x :: xs).filter q) k = dictGet (xs.filter q) k := by
        rw [List.filter_cons]
        by_cases hq : q x = true
        · rw [if_pos hq]
          simp [dictGet, List.find?_cons, hk]
        · rw [if_neg (by simp [hq])]
      rw [h1, h2, ih hnd.2]

theorem dictHasKey_cons (x : String × String) (xs : ScriptMap) (k : String) :
    dictHasKey (x :: xs) k = (x.1 == k || dictHasKey xs k) := by
  simp [dictHasKey, List.any_cons]

theorem dictGet_dictSet_self : ∀ (m : ScriptMap) (k v : String),
    dictGet (dictSet m k v) k = some v := by
  intro m k v
  induction m with
  | nil => simp [dictSet, dictHasKey, dictGet, List.find?_cons]
  | cons x xs ih =>
    by_cases hxk : x.1 = k
    · have hkey : dictHasKey (x :: xs) k = true := by
        rw [dictHasKey_cons]
        simp [hxk]
      unfold dictSet
      rw [if_pos hkey]
      rw [List.map_cons]
      rw [show (if x.1 == k then (k, v) else x) = (k, v) from by simp [hxk]]
      simp [dictGet, List.find?_cons]
    · have hkey : dictHasKey (x :: xs) k = dictHasKey xs k := by
        rw [dictHasKey_cons]
        simp [hxk]
      by_cases hxs : dictHasKey xs k = true
      · unfold dictSet
        rw [if_pos (hkey.trans hxs)]
        rw [List.map_cons]
        rw [show (if x.1 == k then (k, v) else x) = x from by simp [hxk]]
        unfold dictGet
        rw [List.find?_cons, show (x.1 == k) = false from by simp [hxk]]
        have := ih
        unfold dictSet at this
        rw [if_pos hxs] at this
        exact this
      · unfold dictSet
        rw [if_neg (by rw [hkey]; exact hxs)]
        rw [List.cons_append]
        unfold dictGet
        rw [List.find?_cons, show (x.1 == k) = false from by simp [hxk]]
        have := ih
        unfold dictSet at this
        rw [if_neg hxs] at this
        exact this

theorem dictGet_dictSet_ne : ∀ (m : ScriptMap) (k v k2 : String), k2 ≠ k →
    dictGet (dictSet m k v) k2 = dictGet m k2 := by
  intro m k v k2 h
  induction m with
  | nil =>
    unfold dictSet dictGet
    simp [dictHasKey, List.find?_cons, Ne.symm h]
  | cons x xs ih =>
    by_cases hxk : x.1 = k
    · have hkey : dictHasKey (x :: xs) k = true := by
        rw [dictHasKey_cons]
        simp [hxk]
      unfold dictSet
      rw [if_pos hkey]
      rw [List.map_cons]
      rw [show (if x.1 == k then (k, v) else x) = (k, v) from by simp [hxk]]
      unfold dictGet
      rw [List.find?_cons, List.find?_cons]
      rw [show ((k, v).1 == k2) = false from by simp [Ne.symm h]]
      rw [show (x.1 == k2) = false from by simp [hxk, Ne.symm h]]
      have hrest : dictGet (xs.map (fun p => if p.1 == k then (k, v) else p)) k2
          = dictGet xs k2 := by
        by_cases hxs : dictHasKey xs k = true
        · have := ih
          unfold dictSet at this
          rw [if_pos hxs] at this
          exact this
        · have hall : ∀ p ∈ xs, p.1 ≠ k := by
            rw [← dictHasKey_eq_false]
            rw [Bool.not_eq_true] at hxs
            exact hxs
          have hmap : xs.map (fun p => if p.1 == k then (k, v) else p) = xs.map id := by
            apply List.map_congr_left
            intro p hp
            simp [hall p hp]
          rw [hmap, List.map_id]
      exact hrest
    · have hkey : dictHasKey (x :: xs) k = dictHasKey xs k := by
        rw [dictHasKey_cons]
        simp [hxk]
      by_cases hxs : dictHasKey xs k = true
      · unfold dictSet
        rw [if_pos (hkey.trans hxs)]
        rw [List.map_cons]
        rw [show (if x.1 == k then (k, v) else x) = x from by simp [hxk]]
        unfold dictGet
        rw [List.find?_cons, List.find?_cons]
        by_cases hx2 : x.1 = k2
        · simp [hx2]
        · rw [show (x.1 == k2) = false from by simp [hx2]]
          have := ih
          unfold dictSet at this
          rw [if_pos hxs] at this
          exact this
      · unfold dictSet
        rw [if_neg (by rw [hkey]; exact hxs)]
        rw [List.cons_append]
        unfold dictGet
        rw [List.find?_cons, List.find?_cons]
        by_cases hx2 : x.1 = k2
        · simp [hx2]
        · rw [show (x.1 == k2) = false from by simp [hx2]]
          have := ih
          unfold dictSet at this
          rw [if_neg hxs] at this
          exact this

theorem mem_dictSet (m : ScriptMap) (k v : String) (p : String × String)
    (hp : p ∈ dictSet m k v) : p ∈ m ∨ p = (k, v) := by
  unfold dictSet at hp
  by_cases hh : dictHasKey m k = true
  · rw [if_pos hh] at hp
    rw [List.mem_map] at hp
    obtain ⟨x, hx, hxp⟩ := hp
    by_cases hxk : x.1 = k
    · right
      rw [← hxp]
      simp [hxk]
    · left
      rw [← hxp]
      simpa [hxk] using hx
  · rw [if_neg hh] at hp
    rw [List.mem_append] at hp
    cases hp with
    | inl h => exact Or.inl h
    | inr h => exact Or.inr (by simpa using h)

theorem keys_dictSet_nodup (m : ScriptMap) (k v : String)
    (hnd : (m.map Prod.fst).Nodup) :
    ((dictSet m k v).map Prod.fst).Nodup := by
  unfold dictSet
  by_cases hh : dictHasKey m k = true
  · rw [if_pos hh]
    have : (m.map (fun p => if p.1 == k then (k, v) else p)).map Prod.fst
        = m.map Prod.fst := by
      rw [List.map_map]
      apply List.map_congr_left
      intro p _
      by_cases hpk : p.1 = k
      · simp [hpk]
      · simp [hpk]
    rw [this]
    exact hnd
  · rw [if_neg hh]
    rw [List.map_append]
    rw [Bool.not_eq_true, dictHasKey_eq_false] at hh
    simp only [List.map_cons, List.map_nil]
    rw [List.nodup_append]
    refine ⟨hnd, List.nodup_singleton k, ?_⟩
    intro a ha hb
    rw [List.mem_singleton] at hb
    rw [List.mem_map] at ha
    obtain ⟨p, hp, hpk⟩ := ha
    exact hh p hp (hpk.trans hb)

theorem nodup_keys_filter (m : ScriptMap) (q : String × String → Bool)
    (hnd : (m.map Prod.fst).Nodup) :
    ((m.filter q).map Prod.fst).Nodup :=
  ((List.filter_sublist m).map Prod.fst).nodup hnd

theorem keyMatches_true_iff (registry : String → Option (List String))
    (p : String × String) :
    keyMatches registry p = true ↔
      _get_alias registry (pyReplace ' ' '_' p.2) = Except.ok p.1 := by
  unfold keyMatches
  cases h : _get_alias registry (pyReplace ' ' '_' p.2) with
  | ok a =>
    constructor
    · intro hb
      rw [beq_iff_eq] at hb
      rw [hb]
    · intro he
      cases he
      simp
  | error e =>
    constructor
    · intro hb
      cases hb
    · intro he
      cases he

theorem norm_spaced (L : String) (h : ∀ c ∈ L.data, c ≠ ' ') :
    pyReplace ' ' '_' (pyReplace '_' ' ' L) = L := by
  unfold pyReplace
  have : (String.mk (L.data.map fun c => if c = '_' then ' ' else c)).data
      = L.data.map fun c => if c = '_' then ' ' else c := rfl
  rw [this, List.map_map]
  have h2 : L.data.map ((fun c => if c = ' ' then '_' else c) ∘
      (fun c => if c = '_' then ' ' else c)) = L.data.map id := by
    apply List.map_congr_left
    intro c hc
    by_cases hu : c = '_'
    · simp [hu]
    · simp [hu, h c hc]
  rw [h2, List.map_id]

theorem inserted_pair_matched (registry : String → Option (List String))
    (L a : String) (ha : _get_alias registry L = Except.ok a)
    (hs : ∀ c ∈ L.data, c ≠ ' ') :
    keyMatches registry (a, pyReplace '_' ' ' L) = true := by
  rw [keyMatches_true_iff]
  show _get_alias registry (pyReplace ' ' '_' (pyReplace '_' ' ' L)) = Except.ok a
  rw [norm_spaced L hs]
  exact ha

theorem collect_ok_of_lookups (registry : String → Option (List String)) :
    ∀ m : ScriptMap,
      (∀ p ∈ m, ∃ a, _get_alias registry (pyReplace ' ' '_' p.2) = Except.ok a) →
      ∃ r, collectMismatched registry m = Except.ok r := by
  intro m h
  induction m with
  | nil => exact ⟨[], rfl⟩
  | cons x xs ih =>
    obtain ⟨a, ha⟩ := h x (List.mem_cons_self x xs)
    obtain ⟨r, hr⟩ := ih (fun p hp => h p (List.mem_cons_of_mem x hp))
    refine ⟨if a ≠ x.1 then x.1 :: r else r, ?_⟩
    show collectMismatched registry (x :: xs) = _
    rw [show x = (x.1, x.2) from rfl]
    unfold collectMismatched
    rw [ha, hr]

theorem collect_ok_unmatched_mem (registry : String → Option (List String)) :
    ∀ (m : ScriptMap) (r : List String),
      collectMismatched registry m = Except.ok r →
      ∀ p ∈ m, keyMatches registry p = false → p.1 ∈ r := by
  intro m
  induction m with
  | nil =>
    intro r _ p hp
    cases hp
  | cons x xs ih =>
    intro r hr p hp hmm
    rw [show x = (x.1, x.2) from rfl] at hr
    unfold collectMismatched at hr
    cases ha : _get_alias registry (pyReplace ' ' '_' x.2) with
    | error e =>
      rw [ha] at hr
      cases hr
    | ok a =>
      rw [ha] at hr
      cases hxs : collectMismatched registry xs with
      | error e =>
        rw [hxs] at hr
        cases hr
      | ok r2 =>
        rw [hxs] at hr
        cases hr
        cases hp with
        | head =>
          have hkm : keyMatches registry x = (a == x.1) := by
            unfold keyMatches
            rw [ha]
          rw [hkm] at hmm
          have hne : a ≠ x.1 := by
            intro heq
            rw [heq] at hmm
            simp at hmm
          rw [if_pos hne]
          exact List.mem_cons_self _ _
        | tail _ hp2 =>
          have hmem := ih r2 hxs p hp2 hmm
          by_cases hne : a ≠ x.1
          · rw [if_pos hne]
            exact List.mem_cons_of_mem _ hmem
          · rw [if_neg hne]
            exact hmem

theorem collect_ok_mem_unmatched (registry : String → Option (List String)) :
    ∀ (m : ScriptMap) (r : List String),
      collectMismatched registry m = Except.ok r →
      ∀ k ∈ r, ∃ p, p ∈ m ∧ p.1 = k ∧ keyMatches registry p = false := by
  intro m
  induction m with
  | nil =>
    intro r hr k hk
    cases hr
    cases hk
  | cons x xs ih =>
    intro r hr k hk
    rw [show x = (x.1, x.2) from rfl] at hr
    unfold collectMismatched at hr
    cases ha : _get_alias registry (pyReplace ' ' '_' x.2) with
    | error e =>
      rw [ha] at hr
      cases hr
    | ok a =>
      rw [ha] at hr
      cases hxs : collectMismatched registry xs with
      | error e =>
        rw [hxs] at hr
        cases hr
      | ok r2 =>
        rw [hxs] at hr
        cases hr
        have hkm : keyMatches registry x = (a == x.1) := by
          unfold keyMatches
          rw [ha]
        by_cases hne : a ≠ x.1
        · rw [if_pos hne] at hk
          cases hk with
          | head =>
            refine ⟨x, List.mem_cons_self x xs, rfl, ?_⟩
            rw [hkm]
            simp [hne]
          | tail _ hk2 =>
            obtain ⟨p, hp, hpk, hpf⟩ := ih r2 hxs k hk2
            exact ⟨p, List.mem_cons_of_mem x hp, hpk, hpf⟩
        · rw [if_neg hne] at hk
          obtain ⟨p, hp, hpk, hpf⟩ := ih r2 hxs k hk
          exact ⟨p, List.mem_cons_of_mem x hp, hpk, hpf⟩

theorem foldl_dictDel_filter : ∀ (l : List String) (m : ScriptMap),
    l.foldl dictDel m = m.filter (fun p => !(l.any (fun k => p.1 == k))) := by
  intro l
  induction l with
  | nil =>
    intro m
    simp
  | cons k ks ih =>
    intro m
    rw [List.foldl_cons, ih]
    unfold dictDel
    rw [List.filter_filter]
    apply List.filter_congr
    intro p _
    rw [List.any_cons, Bool.not_or]
    exact Bool.and_comm _ _

theorem sweep_eq_filter (registry : String → Option (List String))
    (m : ScriptMap) (r : List String)
    (hnd : (m.map Prod.fst).Nodup)
    (hc : collectMismatched registry m = Except.ok r) :
    r.foldl dictDel m = m.filter (keyMatches registry) := by
  rw [foldl_dictDel_filter]
  apply List.filter_congr
  intro p hp
  by_cases hm : keyMatches registry p = true
  · rw [hm]
    have hfalse : r.any (fun k => p.1 == k) = false := by
      rw [List.any_eq_false]
      intro k hk
      obtain ⟨q, hqm, hqk, hqf⟩ := collect_ok_mem_unmatched registry m r hc k hk
      intro hbeq
      rw [beq_iff_eq] at hbeq
      have hpq : p = q := nodup_keys_unique hnd hp hqm (hbeq.trans hqk.symm)
      rw [hpq, hqf] at hm
      cases hm
    rw [hfalse]
    rfl
  · rw [Bool.not_eq_true] at hm
    rw [hm]
    have hmem := collect_ok_unmatched_mem registry m r hc p hp hm
    have htrue : r.any (fun k => p.1 == k) = true := by
      rw [List.any_eq_true]
      exact ⟨p.1, hmem, by simp⟩
    rw [htrue]
    rfl

theorem sweep_ok_record (registry : String → Option (List String))
    (lang : LangRecord) (m : ScriptMap)
    (hs : lang.script = some m) (hnd : (m.map Prod.fst).Nodup)
    (hC : ∀ p ∈ m, ∃ a, _get_alias registry (pyReplace ' ' '_' p.2) = Except.ok a) :
    _remove_mismatch_ids registry lang =
      (none, { lang with script := some (m.filter (keyMatches registry)) }) := by
  obtain ⟨r, hr⟩ := collect_ok_of_lookups registry m hC
  simp only [_remove_mismatch_ids, hs, hr]
  rw [sweep_eq_filter registry m r hnd hr]

theorem sweep_ok_matched (registry : String → Option (List String))
    (lang out : LangRecord)
    (h : _remove_mismatch_ids registry lang = (none, out)) :
    ∀ m2, out.script = some m2 → ∀ p ∈ m2, keyMatches registry p = true := by
  intro m2 hm2 p hp
  cases hs : lang.script with
  | none => simp [_remove_mismatch_ids, hs] at h
  | some m =>
    cases hc : collectMismatched registry m with
    | error e => simp [_remove_mismatch_ids, hs, hc] at h
    | ok r =>
      simp only [_remove_mismatch_ids, hs, hc, Prod.mk.injEq, true_and] at h
      rw [← h] at hm2
      simp only [Option.some.injEq] at hm2
      rw [← hm2, foldl_dictDel_filter] at hp
      have hpm := List.mem_of_mem_filter hp
      have hpred := List.of_mem_filter hp
      by_cases hkm : keyMatches registry p = true
      · exact hkm
      · exfalso
        rw [Bool.not_eq_true] at hkm
        have hmem := collect_ok_unmatched_mem registry m r hc p hpm hkm
        rw [Bool.not_eq_true'] at hpred
        rw [List.any_eq_false] at hpred
        exact hpred p.1 hmem (by simp)

theorem processWord_ok_eq_stepMap (scriptOf : Char → String)
    (registry : String → Option (List String)) (m : ScriptMap) (w : Word)
    (hnd : (m.map Prod.fst).Nodup)
    (hguard : ∀ L, _detect_best_script_name scriptOf w true = some L →
      ∀ p ∈ m, p.1 ≠ L)
    (hC : ∀ p ∈ m, ∃ a, _get_alias registry (pyReplace ' ' '_' p.2) = Except.ok a)
    (hD : ∀ L, _detect_best_script_name scriptOf w true = some L →
      (∀ c ∈ L.data, c ≠ ' ') ∧ ∃ a, _get_alias registry L = Except.ok a) :
    processWord scriptOf registry ⟨some m⟩ w =
      (none, ⟨some (stepMap scriptOf registry m w)⟩) := by
  cases hd : _detect_best_script_name scriptOf w true with
  | none =>
    unfold processWord stepMap
    rw [hd]
    exact sweep_ok_record registry ⟨some m⟩ m rfl hnd hC
  | some L =>
    obtain ⟨hsp, a, ha⟩ := hD L hd
    have haD : aliasD registry L = a := by
      unfold aliasD
      rw [ha]
    have hgf : dictHasKey m L = false := by
      rw [dictHasKey_eq_false]
      exact hguard L hd
    unfold processWord stepMap
    rw [hd]
    simp only [Option.getD_some, hgf, Bool.false_eq_true, if_false, ha, haD]
    have hnd2 : ((dictSet m a (pyReplace '_' ' ' L)).map Prod.fst).Nodup :=
      keys_dictSet_nodup m a (pyReplace '_' ' ' L) hnd
    have hC2 : ∀ p ∈ dictSet m a (pyReplace '_' ' ' L),
        ∃ b, _get_alias registry (pyReplace ' ' '_' p.2) = Except.ok b := by
      intro p hp
      cases mem_dictSet m a (pyReplace '_' ' ' L) p hp with
      | inl hin => exact hC p hin
      | inr heq =>
        refine ⟨a, ?_⟩
        rw [heq]
        show _get_alias registry (pyReplace ' ' '_' (pyReplace '_' ' ' L)) = Except.ok a
        rw [norm_spaced L hsp]
        exact ha
    exact sweep_ok_record registry ⟨some (dictSet m a (pyReplace '_' ' ' L))⟩
      (dictSet m a (pyReplace '_' ' ' L)) rfl hnd2 hC2

theorem stepMap_matched (scriptOf : Char → String)
    (registry : String → Option (List String)) (m : ScriptMap) (w : Word) :
    ∀ p ∈ stepMap scriptOf registry m w, keyMatches registry p = true := by
  intro p hp
  unfold stepMap at hp
  cases hd : _detect_best_script_name scriptOf w true with
  | none =>
    rw [hd] at hp
    exact List.of_mem_filter hp
  | some L =>
    rw [hd] at hp
    exact List.of_mem_filter hp

theorem stepMap_nodup (scriptOf : Char → String)
    (registry : String → Option (List String)) (m : ScriptMap) (w : Word)
    (hnd : (m.map Prod.fst).Nodup) :
    ((stepMap scriptOf registry m w).map Prod.fst).Nodup := by
  unfold stepMap
  cases hd : _detect_best_script_name scriptOf w true with
  | none => exact nodup_keys_filter m _ hnd
  | some L =>
    exact nodup_keys_filter _ _ (keys_dictSet_nodup m _ _ hnd)

theorem stepMap_keys (scriptOf : Char → String)
    (registry : String → Option (List String)) (m : ScriptMap) (w : Word) :
    ∀ p ∈ stepMap scriptOf registry m w,
      p.1 ∈ m.map Prod.fst ∨
      ∃ L, _detect_best_script_name scriptOf w true = some L ∧
        p.1 = aliasD registry L := by
  intro p hp
  unfold stepMap at hp
  cases hd : _detect_best_script_name scriptOf w true with
  | none =>
    rw [hd] at hp
    exact Or.inl (List.mem_map_of_mem Prod.fst (List.mem_of_mem_filter hp))
  | some L =>
    rw [hd] at hp
    have hp2 := List.mem_of_mem_filter hp
    cases mem_dictSet m (aliasD registry L) (pyReplace '_' ' ' L) p hp2 with
    | inl hin => exact Or.inl (List.mem_map_of_mem Prod.fst hin)
    | inr heq => exact Or.inr ⟨L, rfl, by rw [heq]⟩

theorem stepMap_lookup_none (scriptOf : Char → String)
    (registry : String → Option (List String)) (m : ScriptMap) (w : Word)
    (hd : _detect_best_script_name scriptOf w true = none) :
    stepMap scriptOf registry m w = m.filter (keyMatches registry) := by
  unfold stepMap
  rw [hd]

theorem stepMap_lookup_insert (scriptOf : Char → String)
    (registry : String → Option (List String)) (m : ScriptMap) (w : Word)
    (L a : String)
    (hd : _detect_best_script_name scriptOf w true = some L)
    (hsp : ∀ c ∈ L.data, c ≠ ' ')
    (ha : _get_alias registry L = Except.ok a)
    (hnd : (m.map Prod.fst).Nodup) :
    dictGet (stepMap scriptOf registry m w) (aliasD registry L) =
      some (pyReplace '_' ' ' L) := by
  have haD : aliasD registry L = a := by
    unfold aliasD
    rw [ha]
  unfold stepMap
  rw [hd]
  rw [dictGet_filter (keyMatches registry) (aliasD registry L)
    (keys_dictSet_nodup m _ _ hnd)]
  rw [haD, dictGet_dictSet_self]
  show (if keyMatches registry (a, pyReplace '_' ' ' L) = true
      then some (pyReplace '_' ' ' L) else none) = some (pyReplace '_' ' ' L)
  rw [if_pos (inserted_pair_matched registry L a ha hsp)]

theorem stepMap_lookup_other (scriptOf : Char → String)
    (registry : String → Option (List String)) (m : ScriptMap) (w : Word)
    (L : String) (k : String)
    (hd : _detect_best_script_name scriptOf w true = some L)
    (hk : k ≠ aliasD registry L)
    (hnd : (m.map Prod.fst).Nodup) :
    dictGet (stepMap scriptOf registry m w) k =
      dictGet (m.filter (keyMatches registry)) k := by
  unfold stepMap
  rw [hd]
  rw [dictGet_filter (keyMatches registry) k (keys_dictSet_nodup m _ _ hnd)]
  rw [dictGet_dictSet_ne m _ _ k hk]
  rw [dictGet_filter (keyMatches registry) k hnd]

theorem filter_matched_self (registry : String → Option (List String))
    (m : ScriptMap) (h : ∀ p ∈ m, keyMatches registry p = true) :
    m.filter (keyMatches registry) = m :=
  List.filter_eq_self.mpr h

theorem reconcile_cons_ok (scriptOf : Char → String)
    (registry : String → Option (List String)) (lang lang1 : LangRecord)
    (w : Word) (ws : List Word)
    (h : processWord scriptOf registry lang w = (none, lang1)) :
    reconcile scriptOf registry lang (w :: ws) =
      reconcile scriptOf registry lang1 ws := by
  have heq : reconcile scriptOf registry lang (w :: ws) =
      match processWord scriptOf registry lang w with
      | (some e, l) => (some e, l)
      | (none, l) => reconcile scriptOf registry l ws := rfl
  rw [heq, h]

theorem reconcile_cons_err (scriptOf : Char → String)
    (registry : String → Option (List String)) (lang lang1 : LangRecord)
    (w : Word) (ws : List Word) (e : PyErr)
    (h : processWord scriptOf registry lang w = (some e, lang1)) :
    reconcile scriptOf registry lang (w :: ws) = (some e, lang1) := by
  have heq : reconcile scriptOf registry lang (w :: ws) =
      match processWord scriptOf registry lang w with
      | (some e2, l) => (some e2, l)
      | (none, l) => reconcile scriptOf registry l ws := rfl
  rw [heq, h]

theorem reconcile_append (scriptOf : Char → String)
    (registry : String → Option (List String)) :
    ∀ (ws1 ws2 : List Word) (lang : LangRecord),
      reconcile scriptOf registry lang (ws1 ++ ws2) =
        match reconcile scriptOf registry lang ws1 with
        | (some e, l) => (some e, l)
        | (none, l) => reconcile scriptOf registry l ws2 := by
  intro ws1
  induction ws1 with
  | nil =>
    intro ws2 lang
    rfl
  | cons w ws ih =>
    intro ws2 lang
    rw [List.cons_append]
    cases hpw : processWord scriptOf registry lang w with
    | mk err l1 =>
      cases err with
      | none =>
        rw [reconcile_cons_ok scriptOf registry lang l1 w (ws ++ ws2) hpw]
        rw [reconcile_cons_ok scriptOf registry lang l1 w ws hpw]
        exact ih ws2 l1
      | some e =>
        rw [reconcile_cons_err scriptOf registry lang l1 w (ws ++ ws2) e hpw]
        rw [reconcile_cons_err scriptOf registry lang l1 w ws e hpw]

theorem lastWrite_aux (k : String) :
    ∀ (ps : ScriptMap) (acc : Option String),
      ps.foldl (fun acc p => if p.1 == k then some p.2 else acc) acc =
        match lastWrite ps k with
        | some v => some v
        | none => acc := by
  intro ps
  induction ps with
  | nil =>
    intro acc
    rfl
  | cons p ps ih =>
    intro acc
    rw [List.foldl_cons, ih]
    have hR : lastWrite (p :: ps) k =
        match lastWrite ps k with
        | some v => some v
        | none => if p.1 == k then some p.2 else none := by
      unfold lastWrite
      rw [List.foldl_cons]
      exact ih _
    rw [hR]
    cases lastWrite ps k with
    | some v => rfl
    | none => cases hpk : (p.1 == k) <;> simp [hpk]

theorem lastWrite_cons (p : String × String) (ps : ScriptMap) (k : String) :
    lastWrite (p :: ps) k =
      match lastWrite ps k with
      | some v => some v
      | none => if p.1 == k then some p.2 else none := by
  unfold lastWrite
  rw [List.foldl_cons]
  exact lastWrite_aux k ps _

theorem labelsOf_cons_some (scriptOf : Char → String) (w : Word)
    (ws : List Word) (L : String)
    (hd : _detect_best_script_name scriptOf w true = some L) :
    labelsOf scriptOf (w :: ws) = L :: labelsOf scriptOf ws := by
  simp [labelsOf, List.filterMap_cons, hd]

theorem labelsOf_cons_none (scriptOf : Char → String) (w : Word)
    (ws : List Word)
    (hd : _detect_best_script_name scriptOf w true = none) :
    labelsOf scriptOf (w :: ws) = labelsOf scriptOf ws := by
  simp [labelsOf, List.filterMap_cons, hd]

theorem pairsOf_cons_some (scriptOf : Char → String)
    (registry : String → Option (List String)) (w : Word)
    (ws : List Word) (L : String)
    (hd : _detect_best_script_name scriptOf w true = some L) :
    pairsOf scriptOf registry (w :: ws) =
      (aliasD registry L, pyReplace '_' ' ' L) :: pairsOf scriptOf registry ws := by
  unfold pairsOf
  rw [labelsOf_cons_some scriptOf w ws L hd, List.map_cons]

theorem pairsOf_cons_none (scriptOf : Char → String)
    (registry : String → Option (List String)) (w : Word)
    (ws : List Word)
    (hd : _detect_best_script_name scriptOf w true = none) :
    pairsOf scriptOf registry (w :: ws) = pairsOf scriptOf registry ws := by
  unfold pairsOf
  rw [labelsOf_cons_none scriptOf w ws hd]

theorem stepMap_lookups_ok (scriptOf : Char → String)
    (registry : String → Option (List String)) (m : ScriptMap) (w : Word) :
    ∀ p ∈ stepMap scriptOf registry m w,
      ∃ a, _get_alias registry (pyReplace ' ' '_' p.2) = Except.ok a := by
  intro p hp
  have hm := stepMap_matched scriptOf registry m w p hp
  rw [keyMatches_true_iff] at hm
  exact ⟨p.1, hm⟩

theorem pairsOf_nil (scriptOf : Char → String)
    (registry : String → Option (List String)) :
    pairsOf scriptOf registry [] = [] := rfl

theorem reconcile_char (scriptOf : Char → String)
    (registry : String → Option (List String)) :
    ∀ (ws : List Word) (m : ScriptMap), ws ≠ [] →
      (m.map Prod.fst).Nodup →
      (∀ L ∈ labelsOf scriptOf ws, ∀ p ∈ m, p.1 ≠ L) →
      (∀ L ∈ labelsOf scriptOf ws, ∀ L2 ∈ labelsOf scriptOf ws,
        aliasD registry L2 ≠ L) →
      (∀ p ∈ m, ∃ a, _get_alias registry (pyReplace ' ' '_' p.2) = Except.ok a) →
      (∀ L ∈ labelsOf scriptOf ws,
        (∀ c ∈ L.data, c ≠ ' ') ∧ ∃ a, _get_alias registry L = Except.ok a) →
      ∃ m2, reconcile scriptOf registry ⟨some m⟩ ws = (none, ⟨some m2⟩) ∧
        (m2.map Prod.fst).Nodup ∧
        (∀ p ∈ m2, keyMatches registry p = true) ∧
        (∀ p ∈ m2, p.1 ∈ m.map Prod.fst ∨
          ∃ L ∈ labelsOf scriptOf ws, p.1 = aliasD registry L) ∧
        (∀ k v, lastWrite (pairsOf scriptOf registry ws) k = some v →
          dictGet m2 k = some v) ∧
        (∀ k, lastWrite (pairsOf scriptOf registry ws) k = none →
          dictGet m2 k = dictGet (m.filter (keyMatches registry)) k) := by
  intro ws
  induction ws with
  | nil =>
    intro m hne
    exact absurd rfl hne
  | cons w ws ih =>
    intro m _ hnd hA hB hC hD
    have hmemw : ∀ L, _detect_best_script_name scriptOf w true = some L →
        L ∈ labelsOf scriptOf (w :: ws) := by
      intro L hdL
      rw [labelsOf_cons_some scriptOf w ws L hdL]
      exact List.mem_cons_self _ _
    have hmemtail : ∀ L, L ∈ labelsOf scriptOf ws →
        L ∈ labelsOf scriptOf (w :: ws) := by
      intro L hL
      cases hd : _detect_best_script_name scriptOf w true with
      | some L2 =>
        rw [labelsOf_cons_some scriptOf w ws L2 hd]
        exact List.mem_cons_of_mem _ hL
      | none =>
        rw [labelsOf_cons_none scriptOf w ws hd]
        exact hL
    have hguard : ∀ L, _detect_best_script_name scriptOf w true = some L →
        ∀ p ∈ m, p.1 ≠ L :=
      fun L hdL p hp => hA L (hmemw L hdL) p hp
    have hDw : ∀ L, _detect_best_script_name scriptOf w true = some L →
        (∀ c ∈ L.data, c ≠ ' ') ∧ ∃ a, _get_alias registry L = Except.ok a :=
      fun L hdL => hD L (hmemw L hdL)
    have hstep := processWord_ok_eq_stepMap scriptOf registry m w hnd hguard hC hDw
    have hm1nd := stepMap_nodup scriptOf registry m w hnd
    have hm1mat := stepMap_matched scriptOf registry m w
    have hm1ok := stepMap_lookups_ok scriptOf registry m w
    have hm1filter : (stepMap scriptOf registry m w).filter (keyMatches registry)
        = stepMap scriptOf registry m w := filter_matched_self registry _ hm1mat
    cases hws : ws with
    | nil =>
      subst hws
      refine ⟨stepMap scriptOf registry m w, ?_, hm1nd, hm1mat, ?_, ?_, ?_⟩
      · rw [reconcile_cons_ok scriptOf registry ⟨some m⟩ _ w [] hstep]
        rfl
      · intro p hp
        cases stepMap_keys scriptOf registry m w p hp with
        | inl h => exact Or.inl h
        | inr h =>
          obtain ⟨L, hdL, hpk⟩ := h
          exact Or.inr ⟨L, hmemw L hdL, hpk⟩
      · intro k v hlw
        cases hd : _detect_best_script_name scriptOf w true with
        | none =>
          rw [pairsOf_cons_none scriptOf registry w [] hd,
            pairsOf_nil scriptOf registry] at hlw
          cases hlw
        | some L =>
          rw [pairsOf_cons_some scriptOf registry w [] L hd,
            pairsOf_nil scriptOf registry] at hlw
          have hsingle : lastWrite [(aliasD registry L, pyReplace '_' ' ' L)] k =
              if aliasD registry L == k then some (pyReplace '_' ' ' L) else none := rfl
          rw [hsingle] at hlw
          by_cases hak : aliasD registry L = k
          · rw [if_pos (by simp [hak])] at hlw
            cases hlw
            rw [← hak]
            obtain ⟨hsp, a, ha⟩ := hDw L hd
            exact stepMap_lookup_insert scriptOf registry m w L a hd hsp ha hnd
          · rw [if_neg (by simp [hak])] at hlw
            cases hlw
      · intro k hlw
        cases hd : _detect_best_script_name scriptOf w true with
        | none =>
          rw [stepMap_lookup_none scriptOf registry m w hd]
        | some L =>
          rw [pairsOf_cons_some scriptOf registry w [] L hd,
            pairsOf_nil scriptOf registry] at hlw
          have hsingle : lastWrite [(aliasD registry L, pyReplace '_' ' ' L)] k =
              if aliasD registry L == k then some (pyReplace '_' ' ' L) else none := rfl
          rw [hsingle] at hlw
          by_cases hak : aliasD registry L = k
          · rw [if_pos (by simp [hak])] at hlw
            cases hlw
          · exact stepMap_lookup_other scriptOf registry m w L k hd
              (fun hh => hak hh.symm) hnd
    | cons w2 ws2 =>
      subst hws
      have hA1 : ∀ L ∈ labelsOf scriptOf (w2 :: ws2),
          ∀ p ∈ stepMap scriptOf registry m w, p.1 ≠ L := by
        intro L hL p hp
        cases stepMap_keys scriptOf registry m w p hp with
        | inl hk =>
          rw [List.mem_map] at hk
          obtain ⟨q, hq, hqk⟩ := hk
          rw [← hqk]
          exact hA L (hmemtail L hL) q hq
        | inr hk =>
          obtain ⟨L2, hdL2, hpk⟩ := hk
          rw [hpk]
          exact hB L (hmemtail L hL) L2 (hmemw L2 hdL2)
      have hB1 : ∀ L ∈ labelsOf scriptOf (w2 :: ws2),
          ∀ L2 ∈ labelsOf scriptOf (w2 :: ws2), aliasD registry L2 ≠ L :=
        fun L hL L2 hL2 => hB L (hmemtail L hL) L2 (hmemtail L2 hL2)
      have hD1 : ∀ L ∈ labelsOf scriptOf (w2 :: ws2),
          (∀ c ∈ L.data, c ≠ ' ') ∧ ∃ a, _get_alias registry L = Except.ok a :=
        fun L hL => hD L (hmemtail L hL)
      obtain ⟨m2, hrec2, hnd2, hmat2, hkeys2, hlwS, hlwN⟩ :=
        ih (stepMap scriptOf registry m w) (by simp) hm1nd hA1 hB1 hm1ok hD1
      refine ⟨m2, ?_, hnd2, hmat2, ?_, ?_, ?_⟩
      · rw [reconcile_cons_ok scriptOf registry ⟨some m⟩ _ w (w2 :: ws2) hstep]
        exact hrec2
      · intro p hp
        cases hkeys2 p hp with
        | inl hk =>
          rw [List.mem_map] at hk
          obtain ⟨q, hq, hqk⟩ := hk
          cases stepMap_keys scriptOf registry m w q hq with
          | inl h2 =>
            left
            rw [← hqk]
            exact h2
          | inr h2 =>
            obtain ⟨L2, hdL2, hq1⟩ := h2
            right
            exact ⟨L2, hmemw L2 hdL2, by rw [← hqk, hq1]⟩
        | inr hk =>
          obtain ⟨L, hL, hpk⟩ := hk
          exact Or.inr ⟨L, hmemtail L hL, hpk⟩
      · intro k v hlw
        cases hd : _detect_best_script_name scriptOf w true with
        | none =>
          rw [pairsOf_cons_none scriptOf registry w (w2 :: ws2) hd] at hlw
          exact hlwS k v hlw
        | some L =>
          rw [pairsOf_cons_some scriptOf registry w (w2 :: ws2) L hd,
            lastWrite_cons] at hlw
          cases hin : lastWrite (pairsOf scriptOf registry (w2 :: ws2)) k with
          | some v1 =>
            rw [hin] at hlw
            cases hlw
            exact hlwS k _ hin
          | none =>
            rw [hin] at hlw
            by_cases hak : aliasD registry L = k
            · rw [show (match (none : Option String) with
                | some v => some v
                | none => if (aliasD registry L, pyReplace '_' ' ' L).1 == k
                    then some (aliasD registry L, pyReplace '_' ' ' L).2
                    else none) =
                  (if aliasD registry L == k then some (pyReplace '_' ' ' L)
                    else none) from rfl] at hlw
              rw [if_pos (by simp [hak])] at hlw
              cases hlw
              have hgm2 := hlwN k hin
              rw [hm1filter] at hgm2
              rw [hgm2, ← hak]
              obtain ⟨hsp, a, ha⟩ := hDw L hd
              exact stepMap_lookup_insert scriptOf registry m w L a hd hsp ha hnd
            · rw [show (match (none : Option String) with
                | some v => some v
                | none => if (aliasD registry L, pyReplace '_' ' ' L).1 == k
                    then some (aliasD registry L, pyReplace '_' ' ' L).2
                    else none) =
                  (if aliasD registry L == k then some (pyReplace '_' ' ' L)
                    else none) from rfl] at hlw
              rw [if_neg (by simp [hak])] at hlw
              cases hlw
      · intro k hlw
        cases hd : _detect_best_script_name scriptOf w true with
        | none =>
          rw [pairsOf_cons_none scriptOf registry w (w2 :: ws2) hd] at hlw
          have hgm2 := hlwN k hlw
          rw [hm1filter] at hgm2
          rw [hgm2]
          rw [stepMap_lookup_none scriptOf registry m w hd]
        | some L =>
          rw [pairsOf_cons_some scriptOf registry w (w2 :: ws2) L hd,
            lastWrite_cons] at hlw
          cases hin : lastWrite (pairsOf scriptOf registry (w2 :: ws2)) k with
          | some v1 =>
            rw [hin] at hlw
            cases hlw
          | none =>
            rw [hin] at hlw
            by_cases hak : aliasD registry L = k
            · rw [show (match (none : Option String) with
                | some v => some v
                | none => if (aliasD registry L, pyReplace '_' ' ' L).1 == k
                    then some (aliasD registry L, pyReplace '_' ' ' L).2
                    else none) =
                  (if aliasD registry L == k then some (pyReplace '_' ' ' L)
                    else none) from rfl] at hlw
              rw [if_pos (by simp [hak])] at hlw
              cases hlw
            · have hgm2 := hlwN k hin
              rw [hm1filter] at hgm2
              rw [hgm2]
              exact stepMap_lookup_other scriptOf registry m w L k hd
                (fun hh => hak hh.symm) hnd

theorem processWord_ok_from_sweep (scriptOf : Char → String)
    (registry : String → Option (List String)) (lang out : LangRecord) (w : Word)
    (h : processWord scriptOf registry lang w = (none, out)) :
    ∃ lang1, _remove_mismatch_ids registry lang1 = (none, out) := by
  unfold processWord at h
  split at h
  · exact ⟨lang, h⟩
  · split at h
    · dsimp only at h
      split at h
      · exact ⟨_, h⟩
      · split at h
        · simp at h
        · exact ⟨_, h⟩
    · dsimp only at h
      split at h
      · exact ⟨_, h⟩
      · split at h
        · simp at h
        · exact ⟨_, h⟩
/-- Claim C1, amended: the consistency invariant — every (code, label) pair
of the script map has the registry canonical code of its label equal to the
code — holds at the end of every reconcile call that processes at least one
word and completes without an exception; the sweep sits inside the per-word
loop, so an empty batch leaves the record untouched and a pre-existing
mismatched pair survives (see the counterexample). -/
theorem reconcile_nonempty_ok_invariant :
    ∀ (scriptOf : Char → String) (registry : String → Option (List String))
      (lang : LangRecord) (batch : List Word) (out : LangRecord),
      batch ≠ [] →
      reconcile scriptOf registry lang batch = (none, out) →
      ∀ m2, out.script = some m2 → ∀ p ∈ m2, keyMatches registry p = true := by
  intro scriptOf registry lang batch
  induction batch generalizing lang with
  | nil =>
    intro out hne
    exact absurd rfl hne
  | cons w ws ih =>
    intro out _ hrec m2 hm2 p hp
    cases hpw : processWord scriptOf registry lang w with
    | mk err lang1 =>
      cases err with
      | some e =>
        rw [reconcile_cons_err scriptOf registry lang lang1 w ws e hpw] at hrec
        simp at hrec
      | none =>
        rw [reconcile_cons_ok scriptOf registry lang lang1 w ws hpw] at hrec
        cases hws : ws with
        | nil =>
          subst hws
          have hl1 : lang1 = out := by
            have : (none, lang1) = ((none : Option PyErr), out) := hrec
            simpa using this
          rw [hl1] at hpw
          obtain ⟨langX, hsw⟩ :=
            processWord_ok_from_sweep scriptOf registry lang out w hpw
          exact sweep_ok_matched registry langX out hsw m2 hm2 p hp
        | cons w2 ws2 =>
          subst hws
          exact ih lang1 out (by simp) hrec m2 hm2 p hp

theorem reconcile_nonempty_ok_invariant_wit :
    ([['a']] : List Word) ≠ [] ∧
    reconcile uScript isoRegistry ⟨some []⟩ [['a']] =
      (none, ⟨some [("latn", "Latin")]⟩) ∧
    (∀ m2, (LangRecord.mk (some [("latn", "Latin")])).script = some m2 →
      ∀ p ∈ m2, keyMatches isoRegistry p = true) :=
  ⟨by decide, by decide,
    reconcile_nonempty_ok_invariant uScript isoRegistry ⟨some []⟩ [['a']]
      ⟨some [("latn", "Latin")]⟩ (by decide) (by decide)⟩

/-- Claim C4, amended: a failed canonical-code lookup aborts the whole
batch, not only the current word — the exception surfaces from reconcile
and no later word is processed — but the script map is not corrupted: the
record is left exactly as the preceding words left it, except that an
absent script field has been created empty, and no partial sweep is
applied. -/
theorem lookup_failure_abort_state :
    ∀ (scriptOf : Char → String) (registry : String → Option (List String))
      (lang : LangRecord) (ws1 : List Word) (w : Word) (ws2 : List Word)
      (lang1 : LangRecord) (L : String) (e : PyErr),
      reconcile scriptOf registry lang ws1 = (none, lang1) →
      _detect_best_script_name scriptOf w true = some L →
      (∀ p ∈ lang1.script.getD [], p.1 ≠ L) →
      _get_alias registry L = Except.error e →
      reconcile scriptOf registry lang (ws1 ++ w :: ws2) =
        (some e, match lang1.script with
          | none => { lang1 with script := some [] }
          | some _ => lang1) := by
  intro scriptOf registry lang ws1 w ws2 lang1 L e h1 hd hg ha
  rw [reconcile_append scriptOf registry ws1 (w :: ws2) lang, h1]
  show reconcile scriptOf registry lang1 (w :: ws2) = _
  have hpw : processWord scriptOf registry lang1 w =
      (some e, match lang1.script with
        | none => { lang1 with script := some [] }
        | some _ => lang1) := by
    unfold processWord
    rw [hd]
    cases hs : lang1.script with
    | none =>
      simp only [hs]
      rw [show dictHasKey (Option.getD (some ([] : ScriptMap)) []) L = false from rfl]
      rw [if_neg (by simp)]
      rw [ha]
    | some m0 =>
      simp only [hs]
      rw [hs] at hg
      simp only [Option.getD_some] at hg
      have hg2 : dictHasKey m0 L = false := (dictHasKey_eq_false m0 L).mpr hg
      rw [show Option.getD (some m0) [] = m0 from rfl, hg2]
      rw [if_neg (by simp)]
      rw [ha]
  rw [reconcile_cons_err scriptOf registry lang1 _ w ws2 e hpw]

theorem lookup_failure_abort_state_wit :
    reconcile uScript driftRegistry ⟨some []⟩ [['a']] =
      (none, ⟨some [("latn", "Latin")]⟩) ∧
    _detect_best_script_name uScript ['ω'] true = some "Greek" ∧
    _get_alias driftRegistry "Greek" = Except.error (PyErr.keyError "Greek") ∧
    reconcile uScript driftRegistry ⟨some []⟩ [['a'], ['ω'], ['b']] =
      (some (PyErr.keyError "Greek"), ⟨some [("latn", "Latin")]⟩) :=
  ⟨by decide, by decide, by decide,
    lookup_failure_abort_state uScript driftRegistry ⟨some []⟩ [['a']] ['ω']
      [['b']] ⟨some [("latn", "Latin")]⟩ "Greek" (PyErr.keyError "Greek")
      (by decide) (by decide) (by decide) (by decide)⟩


/-- Claim C7, amended: reconcile is idempotent for a record whose script
field is present with pairwise-distinct keys none of which equals a script
label classified from the batch, under the guarantees the real Unicode
tables provide — every classified label is space-free and registry-known,
no classified label equals a canonical code, and every stored value has a
registry-known normalised label: then both runs succeed and the second run
leaves the script map pointwise equal to the first.  Without the key
restriction the claim fails, because the insertion guard compares the
label, not the code, against the keys (see the counterexample). -/
theorem reconcile_idempotent_amended :
    ∀ (scriptOf : Char → String) (registry : String → Option (List String))
      (m : ScriptMap) (batch : List Word),
      (m.map Prod.fst).Nodup →
      (∀ L ∈ labelsOf scriptOf batch, ∀ p ∈ m, p.1 ≠ L) →
      (∀ L ∈ labelsOf scriptOf batch, ∀ L2 ∈ labelsOf scriptOf batch,
        aliasD registry L2 ≠ L) →
      (∀ p ∈ m, ∃ a, _get_alias registry (pyReplace ' ' '_' p.2) = Except.ok a) →
      (∀ L ∈ labelsOf scriptOf batch,
        (∀ c ∈ L.data, c ≠ ' ') ∧ ∃ a, _get_alias registry L = Except.ok a) →
      ∃ out1 out2 m1 m2,
        reconcile scriptOf registry ⟨some m⟩ batch = (none, out1) ∧
        out1.script = some m1 ∧
        reconcile scriptOf registry out1 batch = (none, out2) ∧
        out2.script = some m2 ∧
        ∀ k, dictGet m2 k = dictGet m1 k := by
  intro scriptOf registry m batch hnd hA hB hC hD
  cases hb : batch with
  | nil =>
    exact ⟨⟨some m⟩, ⟨some m⟩, m, m, rfl, rfl, rfl, rfl, fun k => rfl⟩
  | cons w ws =>
    subst hb
    obtain ⟨m1, hrec1, hnd1, hmat1, hkeys1, hlwS1, hlwN1⟩ :=
      reconcile_char scriptOf registry (w :: ws) m (by simp) hnd hA hB hC hD
    have hA2 : ∀ L ∈ labelsOf scriptOf (w :: ws), ∀ p ∈ m1, p.1 ≠ L := by
      intro L hL p hp
      cases hkeys1 p hp with
      | inl hk =>
        rw [List.mem_map] at hk
        obtain ⟨q, hq, hqk⟩ := hk
        rw [← hqk]
        exact hA L hL q hq
      | inr hk =>
        obtain ⟨L2, hL2, hpk⟩ := hk
        rw [hpk]
        exact hB L hL L2 hL2
    have hC2 : ∀ p ∈ m1, ∃ a,
        _get_alias registry (pyReplace ' ' '_' p.2) = Except.ok a := by
      intro p hp
      have hm := hmat1 p hp
      rw [keyMatches_true_iff] at hm
      exact ⟨p.1, hm⟩
    obtain ⟨m2, hrec2, hnd2, hmat2, hkeys2, hlwS2, hlwN2⟩ :=
      reconcile_char scriptOf registry (w :: ws) m1 (by simp) hnd1 hA2 hB hC2 hD
    refine ⟨⟨some m1⟩, ⟨some m2⟩, m1, m2, hrec1, rfl, hrec2, rfl, ?_⟩
    intro k
    cases hlw : lastWrite (pairsOf scriptOf registry (w :: ws)) k with
    | some v =>
      rw [hlwS2 k v hlw, hlwS1 k v hlw]
    | none =>
      rw [hlwN2 k hlw, filter_matched_self registry m1 hmat1]

theorem reconcile_idempotent_amended_wit :
    ∃ out1 out2 m1 m2,
      reconcile uScript isoRegistry ⟨some []⟩ [['a']] = (none, out1) ∧
      out1.script = some m1 ∧
      reconcile uScript isoRegistry out1 [['a']] = (none, out2) ∧
      out2.script = some m2 ∧
      ∀ k, dictGet m2 k = dictGet m1 k :=
  reconcile_idempotent_amended uScript isoRegistry [] [['a']]
    (by decide)
    (by
      intro L hL p hp
      exact absurd hp (List.not_mem_nil p))
    (by
      intro L hL L2 hL2
      have hlab : labelsOf uScript [['a']] = ["Latin"] := by decide
      rw [hlab] at hL hL2
      have h1 : L = "Latin" := by simpa using hL
      have h2 : L2 = "Latin" := by simpa using hL2
      rw [h1, h2]
      decide)
    (by
      intro p hp
      exact absurd hp (List.not_mem_nil p))
    (by
      intro L hL
      have hlab : labelsOf uScript [['a']] = ["Latin"] := by decide
      rw [hlab] at hL
      have h1 : L = "Latin" := by simpa using hL
      rw [h1]
      exact ⟨by decide, "latn", by decide⟩)

/-- Claim C3, amended: the insertion guard of the reconcile loop tests
whether the script label — not its canonical code — is a key of the map;
when the label is not a key, the word label is stored under its canonical
code, overwriting any value already recorded there (no hypothesis below
keeps the code out of the keys; the counterexample shows an overwrite).
For a batch of two words that classify to the same script label, the value
recorded under that label canonical code is the shared derived label
string, which equals the one derived from the first occurrence. -/
theorem same_label_batch_records_label :
    ∀ (scriptOf : Char → String) (registry : String → Option (List String))
      (m : ScriptMap) (w1 w2 : Word) (L : String),
      _detect_best_script_name scriptOf w1 true = some L →
      _detect_best_script_name scriptOf w2 true = some L →
      (m.map Prod.fst).Nodup →
      (∀ p ∈ m, p.1 ≠ L) →
      aliasD registry L ≠ L →
      (∀ c ∈ L.data, c ≠ ' ') →
      (∃ a, _get_alias registry L = Except.ok a) →
      (∀ p ∈ m, ∃ a, _get_alias registry (pyReplace ' ' '_' p.2) = Except.ok a) →
      ∃ m2, reconcile scriptOf registry ⟨some m⟩ [w1, w2] = (none, ⟨some m2⟩) ∧
        dictGet m2 (aliasD registry L) = some (pyReplace '_' ' ' L) := by
  intro scriptOf registry m w1 w2 L hd1 hd2 hnd hkey hcode hsp ha hC
  have hlabels : labelsOf scriptOf [w1, w2] = [L, L] := by
    simp [labelsOf, List.filterMap_cons, hd1, hd2]
  have hA : ∀ L2 ∈ labelsOf scriptOf [w1, w2], ∀ p ∈ m, p.1 ≠ L2 := by
    intro L2 hL2
    rw [hlabels] at hL2
    have h2 : L2 = L := by simpa using hL2
    rw [h2]
    exact hkey
  have hB : ∀ L2 ∈ labelsOf scriptOf [w1, w2],
      ∀ L3 ∈ labelsOf scriptOf [w1, w2], aliasD registry L3 ≠ L2 := by
    intro L2 hL2 L3 hL3
    rw [hlabels] at hL2 hL3
    have h2 : L2 = L := by simpa using hL2
    have h3 : L3 = L := by simpa using hL3
    rw [h2, h3]
    exact hcode
  have hD : ∀ L2 ∈ labelsOf scriptOf [w1, w2],
      (∀ c ∈ L2.data, c ≠ ' ') ∧ ∃ a, _get_alias registry L2 = Except.ok a := by
    intro L2 hL2
    rw [hlabels] at hL2
    have h2 : L2 = L := by simpa using hL2
    rw [h2]
    exact ⟨hsp, ha⟩
  obtain ⟨m2, hrec, _, _, _, hlwS, _⟩ :=
    reconcile_char scriptOf registry [w1, w2] m (by simp) hnd hA hB hC hD
  refine ⟨m2, hrec, ?_⟩
  apply hlwS
  have hpairs : pairsOf scriptOf registry [w1, w2] =
      [(aliasD registry L, pyReplace '_' ' ' L),
        (aliasD registry L, pyReplace '_' ' ' L)] := by
    unfold pairsOf
    rw [hlabels]
    rfl
  rw [hpairs]
  simp [lastWrite]

theorem same_label_batch_records_label_wit :
    ∃ m2, reconcile uScript isoRegistry ⟨some [("arab", "Latin")]⟩
        [['ا'], ['ا']] = (none, ⟨some m2⟩) ∧
      dictGet m2 (aliasD isoRegistry "Arabic") =
        some (pyReplace '_' ' ' "Arabic") :=
  same_label_batch_records_label uScript isoRegistry [("arab", "Latin")]
    ['ا'] ['ا'] "Arabic" (by decide) (by decide) (by decide) (by decide)
    (by decide) (by decide) ⟨"arab", by decide⟩
    (by
      intro p hp
      have h2 : p = ("arab", "Latin") := by simpa using hp
      rw [h2]
      exact ⟨"latn", by decide⟩)

end LU
